import Mathlib

/-!
Shallow embedding of the l2beat backend database layer
(`BlockNumberRepository.ts`, `PriceRepository.ts`, and the balance
repository exercised by `BalanceRepository.test.ts`).

Modelling conventions:
* JavaScript `bigint` values that the spec declares unsigned are `Nat`.
* A text column holding a decimal integer is modelled as its list of
  decimal digit values (most significant first): character order on
  the digits '0'..'9' coincides with numeric order of the digit
  values, so SQL lexicographic comparison of such text values is
  `lexLtD` below.
* The JavaScript `Number(...)` conversion (applied to a `bigint` or to
  a decimal string) rounds to the nearest IEEE-754 double; on
  naturals this is `jsRound` below (round to nearest, ties to even,
  exact at or below 2 ^ 53).
* Tables are lists of row values; each repository method is a pure
  function of the table state.
-/

/-- Decimal digits of a natural number, least significant first
(`0` has no digits). -/
def digitsAux : Nat → List Nat
  | 0 => []
  | n + 1 => ((n + 1) % 10) :: digitsAux ((n + 1) / 10)
decreasing_by exact Nat.div_lt_self (Nat.succ_pos n) (by omega)

/-- The decimal text encoding of a natural number, as its digit values,
most significant first; mirrors JavaScript `n.toString()`. -/
def digitsOf (n : Nat) : List Nat :=
  if n = 0 then [0] else (digitsAux n).reverse

/-- Numeric value of a digit string (most significant first); mirrors
exact decimal parsing. -/
def parseDigits (ds : List Nat) : Nat :=
  ds.foldl (fun a d => a * 10 + d) 0

/-- Lexicographic strict order on digit strings: this is how the SQL
engine compares two values of a text column holding decimal digits. -/
def lexLtD : List Nat → List Nat → Bool
  | [], [] => false
  | [], _ :: _ => true
  | _ :: _, [] => false
  | a :: as, b :: bs =>
    if a < b then true else if b < a then false else lexLtD as bs

/-- Binary length of a natural number (`bits 0 = 0`,
`bits n = ⌊log₂ n⌋ + 1` for positive `n`). -/
def bits : Nat → Nat
  | 0 => 0
  | n + 1 => bits ((n + 1) / 2) + 1
decreasing_by exact Nat.div_lt_self (Nat.succ_pos n) (by omega)

/-- JavaScript `Number(...)` applied to a nonnegative integer (from a
`bigint` or an exact decimal string): round to the nearest IEEE-754
double, ties to even.  Values at or below `2 ^ 53` are exact; larger
values keep only the top 53 bits of precision. -/
def jsRound (n : Nat) : Nat :=
  if n ≤ 2 ^ 53 then n
  else if 2 * (n % 2 ^ (bits n - 53)) > 2 ^ (bits n - 53) ∨
      (2 * (n % 2 ^ (bits n - 53)) = 2 ^ (bits n - 53) ∧
        (n / 2 ^ (bits n - 53)) % 2 = 1) then
    (n / 2 ^ (bits n - 53) + 1) * 2 ^ (bits n - 53)
  else (n / 2 ^ (bits n - 53)) * 2 ^ (bits n - 53)

/-- `BlockNumberRecord` from `BlockNumberRepository.ts`: an observed
chain height at a point in time. -/
structure BlockNumberRecord where
  timestamp : Nat
  blockNumber : Nat
deriving DecidableEq, Repr

/-- A row of the `block_numbers` table: `unix_timestamp` is a text
column (digit string), `block_number` an integer column. -/
structure BlockNumberRow where
  unix_timestamp : List Nat
  block_number : Nat
deriving DecidableEq, Repr

namespace BlockNumber

/-- `toRow` from `BlockNumberRepository.ts`:
`unix_timestamp := record.timestamp.toString()` and
`block_number := Number(record.blockNumber)` — the `Number(...)`
conversion is the double rounding `jsRound`. -/
def toRow (record : BlockNumberRecord) : BlockNumberRow :=
  { unix_timestamp := digitsOf record.timestamp
    block_number := jsRound record.blockNumber }

/-- `toRecord` from `BlockNumberRepository.ts`:
`timestamp := new UnixTime(+row.unix_timestamp)` (string to double,
i.e. exact parse followed by double rounding) and
`blockNumber := BigInt(row.block_number)` (exact on integers). -/
def toRecord (row : BlockNumberRow) : BlockNumberRecord :=
  { timestamp := jsRound (parseDigits row.unix_timestamp)
    blockNumber := row.block_number }

/-- The `block_numbers` table: stored rows paired with their
store-generated identifier.  Modelled from the spec: the spec's table
contract says a generated row id is produced on insert (a serial
counter); the schema itself is not part of the sources. -/
structure BlockNumberTable where
  nextId : Nat
  rows : List (Nat × BlockNumberRow)
deriving DecidableEq, Repr

/-- `add` from `BlockNumberRepository.ts`: inserts `toRow record` as
one new row and returns the value produced by
`.returning('block_number')`, i.e. the inserted row's `block_number`
column. -/
def add (s : BlockNumberTable) (record : BlockNumberRecord) :
    BlockNumberTable × Nat :=
  let row := toRow record
  (⟨s.nextId + 1, s.rows ++ [(s.nextId, row)]⟩, row.block_number)

end BlockNumber

/-- `PriceRecord` from `PriceRepository.ts`.  `priceUsd` is carried
opaquely (none of the properties below computes with it). -/
structure PriceRecord where
  assetId : String
  priceUsd : Int
  timestamp : Nat
deriving DecidableEq, Repr

/-- A row of the `coingecko_prices` table: `asset_id` text,
`price_usd` numeric, `unix_timestamp` a text column (digit string). -/
structure PriceRow where
  asset_id : String
  price_usd : Int
  unix_timestamp : List Nat
deriving DecidableEq, Repr

/-- Earliest/latest observed timestamp of one asset's price series
(`DataBoundary` in `PriceRepository.ts`). -/
structure DataBoundary where
  earliest : Nat
  latest : Nat
deriving DecidableEq, Repr

namespace Price

/-- `toRow` from `PriceRepository.ts`:
`unix_timestamp := record.timestamp.toNumber().toString()`. -/
def toRow (record : PriceRecord) : PriceRow :=
  { asset_id := record.assetId
    price_usd := record.priceUsd
    unix_timestamp := digitsOf record.timestamp }

/-- `toRecord` from `PriceRepository.ts`:
`timestamp := new UnixTime(+row.unix_timestamp)`. -/
def toRecord (row : PriceRow) : PriceRecord :=
  { assetId := row.asset_id
    priceUsd := row.price_usd
    timestamp := jsRound (parseDigits row.unix_timestamp) }

/-- `getByTimestamp` from `PriceRepository.ts`: rows whose
`unix_timestamp` column equals `timestamp.toString()`. -/
def getByTimestamp (tbl : List PriceRow) (timestamp : Nat) :
    List PriceRecord :=
  (tbl.filter (fun row => row.unix_timestamp == digitsOf timestamp)).map toRecord

/-- `getByToken` from `PriceRepository.ts`: rows whose `asset_id`
column equals the given asset id. -/
def getByToken (tbl : List PriceRow) (assetId : String) :
    List PriceRecord :=
  (tbl.filter (fun row => row.asset_id == assetId)).map toRecord

/-- Splitting a row list into consecutive chunks of at most `n` rows,
as `knex.batchInsert` does with chunk size `n`. -/
def chunksOf (n : Nat) (l : List PriceRow) : List (List PriceRow) :=
  if n = 0 ∨ l = [] then []
  else l.take n :: chunksOf n (l.drop n)
termination_by l.length
decreasing_by
  rename_i h
  push_neg at h
  have hl : 0 < l.length := List.length_pos.mpr h.2
  simp only [List.length_drop]
  omega

/-- Executing the chunk statements of `knex.batchInsert` one after the
other against the table.  `failsOn` is the store fault oracle: a chunk
statement it rejects raises a data-access error (second component
`false`), which is not recovered — chunks already written stay
written. -/
def batchInsert (failsOn : List PriceRow → Bool) (tbl : List PriceRow) :
    List (List PriceRow) → List PriceRow × Bool
  | [] => (tbl, true)
  | c :: cs =>
    if failsOn c then (tbl, false) else batchInsert failsOn (tbl ++ c) cs

/-- `addMany` from `PriceRepository.ts`: map records to rows, insert
them through `knex.batchInsert('coingecko_prices', rows, 10_000)`, and
return `rows.length`.  The returned count is only reached when no
chunk statement failed. -/
def addMany (failsOn : List PriceRow → Bool) (tbl : List PriceRow)
    (prices : List PriceRecord) : (List PriceRow × Bool) × Nat :=
  let rows := prices.map toRow
  (batchInsert failsOn tbl (chunksOf 10000 rows), rows.length)

/-- SQL `MIN` over the text values of a nonempty group: the
lexicographically least digit string (`[]` is returned for an empty
group, which `calcDataBoundaries` never produces). -/
def sqlMinL : List (List Nat) → List Nat
  | [] => []
  | x :: xs => xs.foldl (fun m s => if lexLtD s m then s else m) x

/-- SQL `MAX` over the text values of a nonempty group: the
lexicographically greatest digit string. -/
def sqlMaxL : List (List Nat) → List Nat
  | [] => []
  | x :: xs => xs.foldl (fun m s => if lexLtD m s then s else m) x

/-- `calcDataBoundaries` from `PriceRepository.ts`: one aggregate
query `min(unix_timestamp), max(unix_timestamp) group by asset_id`
(text-column min/max, hence lexicographic), each aggregate then read
back through `parseInt`. -/
def calcDataBoundaries (tbl : List PriceRow) :
    List (String × DataBoundary) :=
  ((tbl.map (fun r => r.asset_id)).dedup).map fun a =>
    (a, { earliest := jsRound (parseDigits (sqlMinL
            ((tbl.filter (fun r => r.asset_id == a)).map
              (fun r => r.unix_timestamp))))
          latest := jsRound (parseDigits (sqlMaxL
            ((tbl.filter (fun r => r.asset_id == a)).map
              (fun r => r.unix_timestamp)))) })

end Price

/-- `BalanceRecord`: the balance of one asset held by one address at
one observed block. -/
structure BalanceRecord where
  blockNumber : Nat
  holderAddress : String
  assetId : String
  balance : Nat
deriving DecidableEq, Repr

/-- A record of the `getLatestPerHolder` result: the `BalanceRecord`
fields together with the timestamp of the joined `block_numbers`
entry (shape taken from the expected values in
`BalanceRepository.test.ts`). -/
structure BalanceRecordWithTs where
  blockNumber : Nat
  holderAddress : String
  assetId : String
  balance : Nat
  timestamp : Nat
deriving DecidableEq, Repr

namespace Balance

/-- The composite key (blockNumber, holderAddress, assetId) of a
balance row. -/
def keyOf (r : BalanceRecord) : Nat × String × String :=
  (r.blockNumber, r.holderAddress, r.assetId)

/-- Overwriting the balance of every row with the given composite key. -/
def setBal (k : Nat × String × String) (c : Nat)
    (tbl : List BalanceRecord) : List BalanceRecord :=
  tbl.map fun b => if keyOf b == k then { b with balance := c } else b

/-- Modelled from the spec: the per-record behaviour of the balance
upsert (the `BalanceRepository` implementation is not among the
sources) — "if a row with the same (blockNumber, holderAddress,
assetId) key already exists, its `balance` is overwritten; otherwise a
new row is inserted". -/
def addOrUpdate (tbl : List BalanceRecord) (record : BalanceRecord) :
    List BalanceRecord :=
  if tbl.any (fun b => keyOf b == keyOf record) then
    setBal (keyOf record) record.balance tbl
  else tbl ++ [record]

/-- Modelled from the spec: `addOrUpdateMany` applies the upsert to
each record of the batch. -/
def addOrUpdateMany (tbl : List BalanceRecord)
    (records : List BalanceRecord) : List BalanceRecord :=
  records.foldl addOrUpdate tbl

/-- Modelled from the spec: `getByBlock` is an equality filter on
`blockNumber`. -/
def getByBlock (tbl : List BalanceRecord) (blockNumber : Nat) :
    List BalanceRecord :=
  tbl.filter (fun b => b.blockNumber == blockNumber)

/-- Modelled from the spec: `getByHolderAndAsset` is an equality
filter on both fields. -/
def getByHolderAndAsset (tbl : List BalanceRecord)
    (holder asset : String) : List BalanceRecord :=
  tbl.filter (fun b => b.holderAddress == holder && b.assetId == asset)

/-- The inner join of balance rows with `block_numbers` entries on
equal block number, tagging each balance row with the entry's
timestamp. -/
def joinBlocks (bns : List BlockNumberRecord)
    (bals : List BalanceRecord) : List BalanceRecordWithTs :=
  bals.flatMap fun b => bns.filterMap fun e =>
    if e.blockNumber == b.blockNumber then
      some ⟨b.blockNumber, b.holderAddress, b.assetId, b.balance,
        e.timestamp⟩
    else none

/-- The (holder, asset) grouping key of a joined row. -/
def keyHA (r : BalanceRecordWithTs) : String × String :=
  (r.holderAddress, r.assetId)

/-- The first row carrying the maximal timestamp of a group (`SELECT
DISTINCT ON (holder, asset) ... ORDER BY timestamp DESC`). -/
def pickLatest (l : List BalanceRecordWithTs) :
    Option BalanceRecordWithTs :=
  l.foldl
    (fun acc r =>
      match acc with
      | none => some r
      | some m => if m.timestamp < r.timestamp then some r else some m)
    none

/-- For each (holder, asset) pair present in the join, the row of that
pair with maximal joined timestamp. -/
def latestRows (bns : List BlockNumberRecord)
    (bals : List BalanceRecord) : List BalanceRecordWithTs :=
  let j := joinBlocks bns bals
  ((j.map keyHA).dedup).filterMap fun k =>
    pickLatest (j.filter (fun r => keyHA r == k))

/-- Modelled from the spec ("latest balance per holder per asset as of
the most recent known block") and validated against the expected value
of the `getLatestPerHolder` test: group the per-(holder, asset) latest
rows by holder.  The `BalanceRepository` implementation is not among
the sources. -/
def getLatestPerHolder (bns : List BlockNumberRecord)
    (bals : List BalanceRecord) :
    List (String × List BalanceRecordWithTs) :=
  let lr := latestRows bns bals
  ((lr.map (fun r => r.holderAddress)).dedup).map fun h =>
    (h, lr.filter (fun r => r.holderAddress == h))

/-- Written from the claim's and the spec's words (not from the
sources): the single global "latest" block — the block number recorded
by an entry whose timestamp is maximal among all recorded entries. -/
def latestBlockGlobal (bns : List BlockNumberRecord) : Option Nat :=
  (bns.foldl
    (fun acc e =>
      match acc with
      | none => some e
      | some m => if m.timestamp < e.timestamp then some e else some m)
    none).map fun e => e.blockNumber

end Balance

/-! Concrete data of the `getLatestPerHolder` test in
`BalanceRepository.test.ts`. -/

/-- `MOCK_HOLDER` of the test. -/
def mockHolder : String := "0x011B6E24FfB0B5f5fCc564cf4183C5BBBc96D515"

/-- `START` of the test: `UnixTime.fromDate(new Date('2022-05-17'))`. -/
def startTs : Nat := 1652745600

/-- The `block_numbers` rows the test inserts: blocks 123456 and
123457 at `START` and `START + 1 hour`. -/
def testBns : List BlockNumberRecord :=
  [⟨startTs, 123456⟩, ⟨startTs + 3600, 123457⟩]

/-- The balance rows present in the test: `DATA` plus
`additionalRecords`. -/
def testBals : List BalanceRecord :=
  [⟨123456, mockHolder, "dai-dai-stablecoin", 1000000000000000000⟩,
   ⟨123457, mockHolder, "dai-dai-stablecoin", 1000000000000000000⟩,
   ⟨123456, mockHolder, "token-a", 1000000000000000000⟩]

/-- The holder's sequence in the map the test expects from
`getLatestPerHolder` (lines 227-249 of `BalanceRepository.test.ts`). -/
def testLatestList : List BalanceRecordWithTs :=
  [⟨123457, mockHolder, "dai-dai-stablecoin", 1000000000000000000,
     startTs + 3600⟩,
   ⟨123456, mockHolder, "token-a", 1000000000000000000, startTs⟩]

/-- The full map the test expects from `getLatestPerHolder`. -/
def testExpectedLatest : List (String × List BalanceRecordWithTs) :=
  [(mockHolder, testLatestList)]

/-! ### Evaluation equations for the well-founded definitions -/

theorem digitsAux_eq (n : Nat) :
    digitsAux n = if n = 0 then [] else n % 10 :: digitsAux (n / 10) := by
  match n with
  | 0 => simp [digitsAux]
  | m + 1 => simp [digitsAux]

theorem bits_eq (n : Nat) :
    bits n = if n = 0 then 0 else bits (n / 2) + 1 := by
  match n with
  | 0 => simp [bits]
  | m + 1 => simp [bits]

theorem chunksOf_eq (n : Nat) (l : List PriceRow) :
    Price.chunksOf n l =
      if n = 0 ∨ l = [] then []
      else l.take n :: Price.chunksOf n (l.drop n) := by
  rw [Price.chunksOf]

/-! ### Decimal digit strings -/

theorem parseDigits_append_singleton (ds : List Nat) (d : Nat) :
    parseDigits (ds ++ [d]) = parseDigits ds * 10 + d := by
  simp [parseDigits, List.foldl_append]

theorem parseDigits_reverse_digitsAux (n : Nat) :
    parseDigits (digitsAux n).reverse = n := by
  induction n using Nat.strong_induction_on with
  | _ n ih =>
    match n with
    | 0 => simp [digitsAux, parseDigits]
    | m + 1 =>
      rw [digitsAux, List.reverse_cons, parseDigits_append_singleton,
        ih ((m + 1) / 10) (Nat.div_lt_self (Nat.succ_pos m) (by omega))]
      omega

theorem parseDigits_digitsOf (n : Nat) : parseDigits (digitsOf n) = n := by
  unfold digitsOf
  split
  · simp [parseDigits]; omega
  · exact parseDigits_reverse_digitsAux n

theorem digitsAux_lt_ten (n : Nat) : ∀ d ∈ digitsAux n, d < 10 := by
  induction n using Nat.strong_induction_on with
  | _ n ih =>
    match n with
    | 0 => simp [digitsAux]
    | m + 1 =>
      rw [digitsAux]
      intro d hd
      rcases List.mem_cons.mp hd with h | h
      · omega
      · exact ih ((m + 1) / 10) (Nat.div_lt_self (Nat.succ_pos m) (by omega)) d h

theorem digitsOf_lt_ten (n : Nat) : ∀ d ∈ digitsOf n, d < 10 := by
  unfold digitsOf
  split
  · simp
  · intro d hd
    exact digitsAux_lt_ten n d (List.mem_reverse.mp hd)

theorem digitsAux_length (k : Nat) :
    ∀ n, 10 ^ k ≤ n → n < 10 ^ (k + 1) → (digitsAux n).length = k + 1 := by
  induction k with
  | zero =>
    intro n h1 h2
    simp only [pow_zero] at h1
    norm_num at h2
    match n, h1 with
    | m + 1, _ =>
      rw [digitsAux]
      have : (m + 1) / 10 = 0 := Nat.div_eq_of_lt h2
      simp [this, digitsAux]
  | succ k ih =>
    intro n h1 h2
    have hten : (10 : Nat) ^ (k + 1) ≥ 10 := by
      calc (10 : Nat) ≤ 10 ^ 1 := by norm_num
      _ ≤ 10 ^ (k + 1) := Nat.pow_le_pow_right (by omega) (by omega)
    match n, (by omega : 1 ≤ n) with
    | m + 1, _ =>
      rw [digitsAux]
      have hlo : 10 ^ k ≤ (m + 1) / 10 := by
        rw [Nat.le_div_iff_mul_le (by omega)]
        calc 10 ^ k * 10 = 10 ^ (k + 1) := (pow_succ 10 k).symm
        _ ≤ m + 1 := h1
      have hhi : (m + 1) / 10 < 10 ^ (k + 1) := by
        rw [Nat.div_lt_iff_lt_mul (by omega)]
        calc m + 1 < 10 ^ (k + 2) := h2
        _ = 10 ^ (k + 1) * 10 := pow_succ 10 (k + 1)
      simp [ih ((m + 1) / 10) hlo hhi]
  
theorem digitsOf_length (k n : Nat) (h1 : 10 ^ k ≤ n)
    (h2 : n < 10 ^ (k + 1)) : (digitsOf n).length = k + 1 := by
  have hn : n ≠ 0 := by
    have : (0 : Nat) < 10 ^ k := Nat.pos_pow_of_pos k (by omega)
    omega
  unfold digitsOf
  rw [if_neg hn, List.length_reverse]
  exact digitsAux_length k n h1 h2

theorem parseDigits_cons (d : Nat) (ds : List Nat) :
    parseDigits (d :: ds) = d * 10 ^ ds.length + parseDigits ds := by
  have gen : ∀ (l : List Nat) (a : Nat),
      l.foldl (fun x d => x * 10 + d) a =
        a * 10 ^ l.length + l.foldl (fun x d => x * 10 + d) 0 := by
    intro l
    induction l with
    | nil => intro a; simp
    | cons e l ih =>
      intro a
      simp only [List.foldl_cons, List.length_cons, Nat.zero_mul,
        Nat.zero_add]
      rw [ih (a * 10 + e), ih e]
      ring
  simp only [parseDigits, List.foldl_cons]
  simpa using gen ds d

theorem parseDigits_lt (ds : List Nat) (h : ∀ d ∈ ds, d < 10) :
    parseDigits ds < 10 ^ ds.length := by
  induction ds with
  | nil => simp [parseDigits]
  | cons d ds ih =>
    rw [parseDigits_cons]
    have hd : d < 10 := h d (by simp)
    have htail : parseDigits ds < 10 ^ ds.length :=
      ih (fun e he => h e (by simp [he]))
    have hmul : d * 10 ^ ds.length ≤ 9 * 10 ^ ds.length :=
      Nat.mul_le_mul_right _ (by omega)
    have hp : (10 : Nat) ^ (ds.length + 1) = 10 * 10 ^ ds.length := by
      rw [pow_succ]; ring
    simp only [List.length_cons, hp]
    omega

/-! ### Lexicographic text order versus numeric order -/

theorem lexLtD_iff_lt : ∀ as bs : List Nat, as.length = bs.length →
    (∀ d ∈ as, d < 10) → (∀ d ∈ bs, d < 10) →
    (lexLtD as bs = true ↔ parseDigits as < parseDigits bs) := by
  intro as
  induction as with
  | nil =>
    intro bs hlen _ _
    match bs, hlen with
    | [], _ => simp [lexLtD, parseDigits]
  | cons a as ih =>
    intro bs hlen ha hb
    match bs, hlen with
    | b :: bs, hlen =>
      have hlen' : as.length = bs.length := by
        simpa using hlen
      have ha' : ∀ d ∈ as, d < 10 := fun d hd => ha d (by simp [hd])
      have hb' : ∀ d ∈ bs, d < 10 := fun d hd => hb d (by simp [hd])
      have hpa : parseDigits as < 10 ^ as.length := parseDigits_lt as ha'
      have hpb : parseDigits bs < 10 ^ bs.length := parseDigits_lt bs hb'
      rw [parseDigits_cons, parseDigits_cons, lexLtD, ← hlen']
      by_cases hab : a < b
      · rw [if_pos hab]
        have hstep : (a + 1) * 10 ^ as.length ≤ b * 10 ^ as.length :=
          Nat.mul_le_mul_right _ (by omega)
        have : a * 10 ^ as.length + parseDigits as <
            b * 10 ^ as.length + parseDigits bs := by
          calc a * 10 ^ as.length + parseDigits as
              < a * 10 ^ as.length + 10 ^ as.length := by omega
          _ = (a + 1) * 10 ^ as.length := by ring
          _ ≤ b * 10 ^ as.length := hstep
          _ ≤ b * 10 ^ as.length + parseDigits bs := by omega
        simp [this]
      · rw [if_neg hab]
        by_cases hba : b < a
        · rw [if_pos hba]
          have hstep : (b + 1) * 10 ^ as.length ≤ a * 10 ^ as.length :=
            Nat.mul_le_mul_right _ (by omega)
          have : b * 10 ^ as.length + parseDigits bs <
              a * 10 ^ as.length + parseDigits as := by
            calc b * 10 ^ as.length + parseDigits bs
                < b * 10 ^ as.length + 10 ^ as.length := by
                  rw [← hlen'] at hpb; omega
            _ = (b + 1) * 10 ^ as.length := by ring
            _ ≤ a * 10 ^ as.length := hstep
            _ ≤ a * 10 ^ as.length + parseDigits as := by omega
          simp only [Bool.false_eq_true, false_iff]
          omega
        · have hab' : a = b := by omega
          rw [if_neg hba, hab', ih bs hlen' ha' hb']
          omega

/-- The result of the SQL `MIN` fold: a member of the group whose
numeric value is least, provided all group members have the same text
length and are digit strings. -/
theorem sqlMinL_spec (x : List Nat) (xs : List (List Nat)) (ℓ : Nat)
    (hall : ∀ s ∈ x :: xs, s.length = ℓ ∧ ∀ d ∈ s, d < 10) :
    Price.sqlMinL (x :: xs) ∈ x :: xs ∧
      ∀ s ∈ x :: xs, parseDigits (Price.sqlMinL (x :: xs)) ≤ parseDigits s := by
  have gen : ∀ (l : List (List Nat)) (acc : List Nat),
      (acc.length = ℓ ∧ ∀ d ∈ acc, d < 10) →
      (∀ s ∈ l, s.length = ℓ ∧ ∀ d ∈ s, d < 10) →
      (l.foldl (fun m s => if lexLtD s m then s else m) acc) ∈ acc :: l ∧
        parseDigits (l.foldl (fun m s => if lexLtD s m then s else m) acc) ≤
          parseDigits acc ∧
        ∀ s ∈ l, parseDigits
          (l.foldl (fun m s => if lexLtD s m then s else m) acc) ≤
            parseDigits s := by
    intro l
    induction l with
    | nil =>
      intro acc _ _
      exact ⟨by simp, by simp [parseDigits], by simp⟩
    | cons s l ihl =>
      intro acc hacc hl
      have hs : s.length = ℓ ∧ ∀ d ∈ s, d < 10 := hl s (by simp)
      have hl' : ∀ t ∈ l, t.length = ℓ ∧ ∀ d ∈ t, d < 10 :=
        fun t ht => hl t (by simp [ht])
      simp only [List.foldl_cons]
      by_cases hcmp : lexLtD s acc = true
      · have hlt : parseDigits s < parseDigits acc :=
          (lexLtD_iff_lt s acc (by rw [hs.1, hacc.1]) hs.2 hacc.2).mp hcmp
        rw [if_pos hcmp]
        obtain ⟨hm, hle, hrest⟩ := ihl s hs hl'
        refine ⟨?_, by omega, ?_⟩
        · rcases List.mem_cons.mp hm with h | h
          · simp [h]
          · simp [h]
        · intro t ht
          rcases List.mem_cons.mp ht with h | h
          · subst h; omega
          · exact hrest t h
      · have hge : parseDigits acc ≤ parseDigits s := by
          have hiff := lexLtD_iff_lt s acc (by rw [hs.1, hacc.1]) hs.2 hacc.2
          have hnot : ¬ parseDigits s < parseDigits acc :=
            fun hlt => hcmp (hiff.mpr hlt)
          omega
        rw [if_neg hcmp]
        obtain ⟨hm, hle, hrest⟩ := ihl acc hacc hl'
        refine ⟨?_, hle, ?_⟩
        · rcases List.mem_cons.mp hm with h | h
          · simp [h]
          · simp [h]
        · intro t ht
          rcases List.mem_cons.mp ht with h | h
          · subst h; omega
          · exact hrest t h
  have hx := hall x (by simp)
  have hxs : ∀ s ∈ xs, s.length = ℓ ∧ ∀ d ∈ s, d < 10 :=
    fun s hs => hall s (by simp [hs])
  obtain ⟨hm, hle, hrest⟩ := gen xs x hx hxs
  constructor
  · simpa [Price.sqlMinL] using hm
  · intro s hs
    rcases List.mem_cons.mp hs with h | h
    · subst h; simpa [Price.sqlMinL] using hle
    · simpa [Price.sqlMinL] using hrest s h

/-- The result of the SQL `MAX` fold: a member of the group whose
numeric value is greatest, provided all group members have the same
text length and are digit strings. -/
theorem sqlMaxL_spec (x : List Nat) (xs : List (List Nat)) (ℓ : Nat)
    (hall : ∀ s ∈ x :: xs, s.length = ℓ ∧ ∀ d ∈ s, d < 10) :
    Price.sqlMaxL (x :: xs) ∈ x :: xs ∧
      ∀ s ∈ x :: xs, parseDigits s ≤ parseDigits (Price.sqlMaxL (x :: xs)) := by
  have gen : ∀ (l : List (List Nat)) (acc : List Nat),
      (acc.length = ℓ ∧ ∀ d ∈ acc, d < 10) →
      (∀ s ∈ l, s.length = ℓ ∧ ∀ d ∈ s, d < 10) →
      (l.foldl (fun m s => if lexLtD m s then s else m) acc) ∈ acc :: l ∧
        parseDigits acc ≤
          parseDigits (l.foldl (fun m s => if lexLtD m s then s else m) acc) ∧
        ∀ s ∈ l, parseDigits s ≤ parseDigits
          (l.foldl (fun m s => if lexLtD m s then s else m) acc) := by
    intro l
    induction l with
    | nil =>
      intro acc _ _
      exact ⟨by simp, by simp [parseDigits], by simp⟩
    | cons s l ihl =>
      intro acc hacc hl
      have hs : s.length = ℓ ∧ ∀ d ∈ s, d < 10 := hl s (by simp)
      have hl' : ∀ t ∈ l, t.length = ℓ ∧ ∀ d ∈ t, d < 10 :=
        fun t ht => hl t (by simp [ht])
      simp only [List.foldl_cons]
      by_cases hcmp : lexLtD acc s = true
      · have hlt : parseDigits acc < parseDigits s :=
          (lexLtD_iff_lt acc s (by rw [hs.1, hacc.1]) hacc.2 hs.2).mp hcmp
        rw [if_pos hcmp]
        obtain ⟨hm, hle, hrest⟩ := ihl s hs hl'
        refine ⟨?_, by omega, ?_⟩
        · rcases List.mem_cons.mp hm with h | h
          · simp [h]
          · simp [h]
        · intro t ht
          rcases List.mem_cons.mp ht with h | h
          · subst h; omega
          · exact hrest t h
      · have hge : parseDigits s ≤ parseDigits acc := by
          have hiff := lexLtD_iff_lt acc s (by rw [hacc.1, hs.1]) hacc.2 hs.2
          have hnot : ¬ parseDigits acc < parseDigits s :=
            fun hlt => hcmp (hiff.mpr hlt)
          omega
        rw [if_neg hcmp]
        obtain ⟨hm, hle, hrest⟩ := ihl acc hacc hl'
        refine ⟨?_, hle, ?_⟩
        · rcases List.mem_cons.mp hm with h | h
          · simp [h]
          · simp [h]
        · intro t ht
          rcases List.mem_cons.mp ht with h | h
          · subst h; omega
          · exact hrest t h
  have hx := hall x (by simp)
  have hxs : ∀ s ∈ xs, s.length = ℓ ∧ ∀ d ∈ s, d < 10 :=
    fun s hs => hall s (by simp [hs])
  obtain ⟨hm, hle, hrest⟩ := gen xs x hx hxs
  constructor
  · simpa [Price.sqlMaxL] using hm
  · intro s hs
    rcases List.mem_cons.mp hs with h | h
    · subst h; simpa [Price.sqlMaxL] using hle
    · simpa [Price.sqlMaxL] using hrest s h

/-! ### `Number(...)` rounding -/

theorem jsRound_eq_of_le (n : Nat) (h : n ≤ 2 ^ 53) : jsRound n = n := by
  unfold jsRound
  rw [if_pos h]

/-! ### The balance upsert -/

theorem Balance.keyOf_setBalElem (b : BalanceRecord)
    (k : Nat × String × String) (c : Nat) :
    keyOf (if keyOf b == k then { b with balance := c } else b) = keyOf b := by
  split <;> rfl

theorem Balance.map_keyOf_setBal (k : Nat × String × String) (c : Nat)
    (tbl : List BalanceRecord) :
    (setBal k c tbl).map keyOf = tbl.map keyOf := by
  unfold setBal
  rw [List.map_map]
  apply List.map_congr_left
  intro b _
  exact keyOf_setBalElem b k c

theorem Balance.any_key_setBal (k : Nat × String × String) (c : Nat)
    (q : Nat × String × String) (tbl : List BalanceRecord) :
    (setBal k c tbl).any (fun b => keyOf b == q) =
      tbl.any (fun b => keyOf b == q) := by
  induction tbl with
  | nil => rfl
  | cons b tbl ih =>
    simp only [setBal, List.map_cons, List.any_cons] at ih ⊢
    rw [keyOf_setBalElem, ih]

theorem Balance.keyOf_withBalance (b : BalanceRecord) (c : Nat) :
    keyOf { b with balance := c } = keyOf b := rfl

theorem Balance.setBal_setBal (k : Nat × String × String) (c c' : Nat)
    (tbl : List BalanceRecord) :
    setBal k c (setBal k c' tbl) = setBal k c tbl := by
  unfold setBal
  rw [List.map_map]
  apply List.map_congr_left
  intro b _
  simp only [Function.comp_apply]
  by_cases h : keyOf b = k
  · simp [keyOf_withBalance, h]
  · simp [keyOf_withBalance, h]

theorem Balance.setBal_comm (k k' : Nat × String × String)
    (hkk : k ≠ k') (c c' : Nat) (tbl : List BalanceRecord) :
    setBal k c (setBal k' c' tbl) = setBal k' c' (setBal k c tbl) := by
  unfold setBal
  rw [List.map_map, List.map_map]
  apply List.map_congr_left
  intro b _
  simp only [Function.comp_apply]
  by_cases h : keyOf b = k <;> by_cases h' : keyOf b = k'
  · exact absurd (h.symm.trans h') hkk
  · simp [keyOf_withBalance, h, h', hkk]
  · simp [keyOf_withBalance, h, h', Ne.symm hkk]
  · simp [keyOf_withBalance, h, h']

theorem Balance.setBal_append (k : Nat × String × String) (c : Nat)
    (tbl tbl' : List BalanceRecord) :
    setBal k c (tbl ++ tbl') = setBal k c tbl ++ setBal k c tbl' := by
  unfold setBal
  exact List.map_append _ tbl tbl'

theorem Balance.setBal_singleton_other (k : Nat × String × String)
    (c : Nat) (r : BalanceRecord) (h : keyOf r ≠ k) :
    setBal k c [r] = [r] := by
  unfold setBal
  simp [h]

theorem Balance.any_key_addOrUpdate_self (tbl : List BalanceRecord)
    (r : BalanceRecord) :
    (addOrUpdate tbl r).any (fun b => keyOf b == keyOf r) = true := by
  unfold addOrUpdate
  split
  · rename_i h
    rw [any_key_setBal]
    exact h
  · rw [List.any_append]
    simp

theorem Balance.any_key_addOrUpdate_mono (tbl : List BalanceRecord)
    (r : BalanceRecord) (q : Nat × String × String)
    (h : tbl.any (fun b => keyOf b == q) = true) :
    (addOrUpdate tbl r).any (fun b => keyOf b == q) = true := by
  unfold addOrUpdate
  split
  · rw [any_key_setBal]; exact h
  · rw [List.any_append, h, Bool.true_or]

theorem Balance.any_key_addMany_mono (rs : List BalanceRecord) :
    ∀ (tbl : List BalanceRecord) (q : Nat × String × String),
    tbl.any (fun b => keyOf b == q) = true →
    (addOrUpdateMany tbl rs).any (fun b => keyOf b == q) = true := by
  induction rs with
  | nil => intro tbl q h; exact h
  | cons r rs ih =>
    intro tbl q h
    exact ih (addOrUpdate tbl r) q (any_key_addOrUpdate_mono tbl r q h)

theorem Balance.addMany_setBal (rs : List BalanceRecord) :
    ∀ (tbl : List BalanceRecord) (k : Nat × String × String) (c : Nat),
    tbl.any (fun b => keyOf b == k) = true →
    addOrUpdateMany (setBal k c tbl) rs =
      if rs.any (fun r => keyOf r == k) then addOrUpdateMany tbl rs
      else setBal k c (addOrUpdateMany tbl rs) := by
  induction rs with
  | nil =>
    intro tbl k c _
    simp [addOrUpdateMany]
  | cons r rs ih =>
    intro tbl k c hk
    simp only [addOrUpdateMany, List.foldl_cons, List.any_cons] at *
    by_cases hr : (keyOf r == k) = true
    · have hrk : keyOf r = k := by simpa using hr
      have h1 : addOrUpdate (setBal k c tbl) r = setBal k r.balance tbl := by
        unfold addOrUpdate
        rw [if_pos (by rw [any_key_setBal, hrk]; exact hk), hrk,
          setBal_setBal]
      have h2 : addOrUpdate tbl r = setBal k r.balance tbl := by
        unfold addOrUpdate
        rw [if_pos (by rw [hrk]; exact hk), hrk]
      rw [h1, h2, hr, Bool.true_or, if_pos rfl]
    · have hrk : keyOf r ≠ k := by simpa using hr
      by_cases hpres : tbl.any (fun b => keyOf b == keyOf r) = true
      · have h1 : addOrUpdate (setBal k c tbl) r =
            setBal k c (setBal (keyOf r) r.balance tbl) := by
          unfold addOrUpdate
          rw [if_pos (by rw [any_key_setBal]; exact hpres),
            setBal_comm (keyOf r) k hrk]
        have h2 : addOrUpdate tbl r = setBal (keyOf r) r.balance tbl := by
          unfold addOrUpdate
          rw [if_pos hpres]
        have hk' : (setBal (keyOf r) r.balance tbl).any
            (fun b => keyOf b == k) = true := by
          rw [any_key_setBal]; exact hk
        rw [h1, h2, ih (setBal (keyOf r) r.balance tbl) k c hk',
          Bool.eq_false_iff.mpr hr, Bool.false_or]
      · have h1 : addOrUpdate (setBal k c tbl) r =
            setBal k c (tbl ++ [r]) := by
          unfold addOrUpdate
          rw [if_neg (by rw [any_key_setBal]; exact hpres), setBal_append,
            setBal_singleton_other k c r hrk]
        have h2 : addOrUpdate tbl r = tbl ++ [r] := by
          unfold addOrUpdate
          rw [if_neg hpres]
        have hk' : (tbl ++ [r]).any (fun b => keyOf b == k) = true := by
          rw [List.any_append, hk, Bool.true_or]
        rw [h1, h2, ih (tbl ++ [r]) k c hk',
          Bool.eq_false_iff.mpr hr, Bool.false_or]

theorem Balance.addMany_nil (tbl : List BalanceRecord) :
    addOrUpdateMany tbl [] = tbl := rfl

theorem Balance.addMany_cons (tbl : List BalanceRecord)
    (r : BalanceRecord) (rs : List BalanceRecord) :
    addOrUpdateMany tbl (r :: rs) = addOrUpdateMany (addOrUpdate tbl r) rs :=
  rfl

theorem Balance.setBal_of_allBal (k : Nat × String × String) (c : Nat) :
    ∀ tbl : List BalanceRecord,
    (∀ b ∈ tbl, keyOf b = k → b.balance = c) → setBal k c tbl = tbl := by
  intro tbl
  induction tbl with
  | nil => intro _; rfl
  | cons b tbl ih =>
    intro h
    have hrest := ih (fun x hx hk => h x (by simp [hx]) hk)
    simp only [setBal, List.map_cons] at hrest ⊢
    rw [hrest]
    obtain ⟨bn, ha, aid, bal⟩ := b
    by_cases hk : keyOf ⟨bn, ha, aid, bal⟩ = k
    · have hb : bal = c := h _ (by simp) hk
      simp [hk, hb]
    · simp [hk]

theorem Balance.allBal_addOrUpdate_self (tbl : List BalanceRecord)
    (r : BalanceRecord) :
    ∀ b ∈ addOrUpdate tbl r, keyOf b = keyOf r → b.balance = r.balance := by
  intro b hb hk
  unfold addOrUpdate at hb
  split at hb
  · unfold setBal at hb
    obtain ⟨x, hx, rfl⟩ := List.mem_map.mp hb
    by_cases hxk : keyOf x = keyOf r
    · rw [if_pos (by simp [hxk])]
    · rw [if_neg (by simp [hxk])] at hk ⊢
      exact absurd hk hxk
  · rename_i hany
    rcases List.mem_append.mp hb with hmem | hmem
    · exact absurd (List.any_eq_true.mpr ⟨b, hmem, by simp [hk]⟩) hany
    · have : b = r := by simpa using hmem
      subst this
      rfl

theorem Balance.allBal_addOrUpdate_other (tbl : List BalanceRecord)
    (r : BalanceRecord) (k : Nat × String × String) (c : Nat)
    (hr : keyOf r ≠ k) (h : ∀ b ∈ tbl, keyOf b = k → b.balance = c) :
    ∀ b ∈ addOrUpdate tbl r, keyOf b = k → b.balance = c := by
  intro b hb hk
  unfold addOrUpdate at hb
  split at hb
  · unfold setBal at hb
    obtain ⟨x, hx, rfl⟩ := List.mem_map.mp hb
    by_cases hxk : keyOf x = keyOf r
    · rw [if_pos (by simp [hxk])] at hk
      rw [keyOf_withBalance] at hk
      exact absurd (hxk.symm.trans hk) hr
    · rw [if_neg (by simp [hxk])] at hk ⊢
      exact h x hx hk
  · rcases List.mem_append.mp hb with hmem | hmem
    · exact h b hmem hk
    · have : b = r := by simpa using hmem
      subst this
      exact absurd hk hr

theorem Balance.allBal_addMany_other (rs : List BalanceRecord) :
    ∀ (tbl : List BalanceRecord) (k : Nat × String × String) (c : Nat),
    (∀ b ∈ tbl, keyOf b = k → b.balance = c) →
    (∀ x ∈ rs, keyOf x ≠ k) →
    ∀ b ∈ addOrUpdateMany tbl rs, keyOf b = k → b.balance = c := by
  induction rs with
  | nil => intro tbl k c h _ b hb; exact h b hb
  | cons r rs ih =>
    intro tbl k c h hrs
    rw [addMany_cons]
    exact ih (addOrUpdate tbl r) k c
      (allBal_addOrUpdate_other tbl r k c (hrs r (by simp)) h)
      (fun x hx => hrs x (by simp [hx]))

theorem Balance.map_keyOf_addOrUpdate (tbl : List BalanceRecord)
    (r : BalanceRecord) :
    (addOrUpdate tbl r).map keyOf =
      if tbl.any (fun b => keyOf b == keyOf r) then tbl.map keyOf
      else tbl.map keyOf ++ [keyOf r] := by
  unfold addOrUpdate
  split
  · rw [map_keyOf_setBal]
  · rw [List.map_append]
    rfl

theorem Balance.nodup_keys_addOrUpdate (tbl : List BalanceRecord)
    (r : BalanceRecord) (h : (tbl.map keyOf).Nodup) :
    ((addOrUpdate tbl r).map keyOf).Nodup := by
  rw [map_keyOf_addOrUpdate]
  split
  · exact h
  · rename_i hany
    have hnotin : keyOf r ∉ tbl.map keyOf := by
      intro hmem
      obtain ⟨x, hx, hk⟩ := List.mem_map.mp hmem
      exact hany (List.any_eq_true.mpr ⟨x, hx, by simp [hk]⟩)
    simp [List.nodup_append, h, hnotin]

theorem Balance.nodup_keys_addMany (rs : List BalanceRecord) :
    ∀ tbl : List BalanceRecord, (tbl.map keyOf).Nodup →
    ((addOrUpdateMany tbl rs).map keyOf).Nodup := by
  induction rs with
  | nil => intro tbl h; exact h
  | cons r rs ih =>
    intro tbl h
    rw [addMany_cons]
    exact ih (addOrUpdate tbl r) (nodup_keys_addOrUpdate tbl r h)

theorem Balance.toFinset_keys_addOrUpdate (tbl : List BalanceRecord)
    (r : BalanceRecord) :
    ((addOrUpdate tbl r).map keyOf).toFinset =
      (tbl.map keyOf).toFinset ∪ {keyOf r} := by
  rw [map_keyOf_addOrUpdate]
  split
  · rename_i hany
    obtain ⟨x, hx, hk⟩ := List.any_eq_true.mp hany
    have hxk : keyOf x = keyOf r := by simpa using hk
    have hmem : keyOf r ∈ (tbl.map keyOf).toFinset := by
      rw [List.mem_toFinset]
      exact List.mem_map.mpr ⟨x, hx, hxk⟩
    rw [Finset.union_eq_left.mpr (by simpa using hmem)]
  · rw [List.toFinset_append]
    rfl

theorem Balance.toFinset_keys_addMany (rs : List BalanceRecord) :
    ∀ tbl : List BalanceRecord,
    ((addOrUpdateMany tbl rs).map keyOf).toFinset =
      (tbl.map keyOf).toFinset ∪ (rs.map keyOf).toFinset := by
  induction rs with
  | nil =>
    intro tbl
    simp [addMany_nil]
  | cons r rs ih =>
    intro tbl
    rw [addMany_cons, ih (addOrUpdate tbl r), toFinset_keys_addOrUpdate]
    ext q
    simp only [Finset.mem_union, Finset.mem_singleton, List.map_cons,
      List.toFinset_cons, Finset.mem_insert]
    tauto

theorem bits_of_bounds (k : Nat) :
    ∀ n, 2 ^ k ≤ n → n < 2 ^ (k + 1) → bits n = k + 1 := by
  induction k with
  | zero =>
    intro n h1 h2
    norm_num at h1 h2
    match n, h1 with
    | 1, _ => rw [bits]; simp [bits]
  | succ k ih =>
    intro n h1 h2
    have h2two : (2 : Nat) ^ (k + 1) ≥ 2 := by
      calc (2 : Nat) = 2 ^ 1 := by norm_num
      _ ≤ 2 ^ (k + 1) := Nat.pow_le_pow_right (by omega) (by omega)
    match n, (by omega : 1 ≤ n) with
    | m + 1, _ =>
      rw [bits]
      have hlo : 2 ^ k ≤ (m + 1) / 2 := by
        rw [Nat.le_div_iff_mul_le (by omega)]
        calc 2 ^ k * 2 = 2 ^ (k + 1) := (pow_succ 2 k).symm
        _ ≤ m + 1 := h1
      have hhi : (m + 1) / 2 < 2 ^ (k + 1) := by
        rw [Nat.div_lt_iff_lt_mul (by omega)]
        calc m + 1 < 2 ^ (k + 2) := h2
        _ = 2 ^ (k + 1) * 2 := pow_succ 2 (k + 1)
      simp [ih ((m + 1) / 2) hlo hhi]

/-! ### `DISTINCT ON` selection -/

theorem Balance.pickLatest_spec (l : List BalanceRecordWithTs)
    (hne : l ≠ []) :
    ∃ m, pickLatest l = some m ∧ m ∈ l ∧
      ∀ x ∈ l, x.timestamp ≤ m.timestamp := by
  have gen : ∀ (t : List BalanceRecordWithTs) (m : BalanceRecordWithTs),
      ∃ m', t.foldl
          (fun acc r =>
            match acc with
            | none => some r
            | some m =>
              if m.timestamp < r.timestamp then some r else some m)
          (some m) = some m' ∧
        m' ∈ m :: t ∧ m.timestamp ≤ m'.timestamp ∧
        ∀ x ∈ t, x.timestamp ≤ m'.timestamp := by
    intro t
    induction t with
    | nil => intro m; exact ⟨m, rfl, by simp, le_refl _, by simp⟩
    | cons r t ih =>
      intro m
      simp only [List.foldl_cons]
      by_cases hcmp : m.timestamp < r.timestamp
      · obtain ⟨m', hfold, hmem, hle, hall⟩ := ih r
        rw [if_pos hcmp]
        refine ⟨m', hfold, ?_, by omega, ?_⟩
        · rcases List.mem_cons.mp hmem with h | h
          · simp [h]
          · simp [List.mem_cons.mpr (Or.inr h)]
        · intro x hx
          rcases List.mem_cons.mp hx with h | h
          · subst h; omega
          · exact hall x h
      · obtain ⟨m', hfold, hmem, hle, hall⟩ := ih m
        rw [if_neg hcmp]
        refine ⟨m', hfold, ?_, hle, ?_⟩
        · rcases List.mem_cons.mp hmem with h | h
          · simp [h]
          · simp [List.mem_cons.mpr (Or.inr h)]
        · intro x hx
          rcases List.mem_cons.mp hx with h | h
          · subst h; omega
          · exact hall x h
  match l, hne with
  | x :: xs, _ =>
    obtain ⟨m', hfold, hmem, hle, hall⟩ := gen xs x
    refine ⟨m', ?_, hmem, ?_⟩
    · unfold pickLatest
      simpa using hfold
    · intro y hy
      rcases List.mem_cons.mp hy with h | h
      · subst h; exact hle
      · exact hall y h

theorem Balance.pickLatest_eq_some (l : List BalanceRecordWithTs)
    (m : BalanceRecordWithTs) (h : pickLatest l = some m) :
    m ∈ l ∧ ∀ x ∈ l, x.timestamp ≤ m.timestamp := by
  match l with
  | [] => cases h
  | x :: xs =>
    obtain ⟨m', hfold, hmem, hall⟩ := pickLatest_spec (x :: xs) (by simp)
    rw [h] at hfold
    cases hfold
    exact ⟨hmem, hall⟩

theorem Balance.mem_joinBlocks (bns : List BlockNumberRecord)
    (bals : List BalanceRecord) (r : BalanceRecordWithTs) :
    r ∈ joinBlocks bns bals ↔
      ∃ b ∈ bals, ∃ e ∈ bns, e.blockNumber = b.blockNumber ∧
        r = ⟨b.blockNumber, b.holderAddress, b.assetId, b.balance,
          e.timestamp⟩ := by
  unfold joinBlocks
  constructor
  · intro h
    obtain ⟨b, hb, h2⟩ := List.mem_flatMap.mp h
    obtain ⟨e, he, h3⟩ := List.mem_filterMap.mp h2
    by_cases hbe : e.blockNumber = b.blockNumber
    · refine ⟨b, hb, e, he, hbe, ?_⟩
      rw [if_pos (by simp [hbe])] at h3
      exact (Option.some.inj h3).symm
    · rw [if_neg (by simp [hbe])] at h3
      cases h3
  · rintro ⟨b, hb, e, he, hbe, rfl⟩
    exact List.mem_flatMap.mpr
      ⟨b, hb, List.mem_filterMap.mpr
        ⟨e, he, by rw [if_pos (by simp [hbe])]⟩⟩

theorem Balance.mem_latestRows (bns : List BlockNumberRecord)
    (bals : List BalanceRecord) (r : BalanceRecordWithTs)
    (h : r ∈ latestRows bns bals) :
    r ∈ joinBlocks bns bals ∧
      ∀ x ∈ joinBlocks bns bals, keyHA x = keyHA r →
        x.timestamp ≤ r.timestamp := by
  unfold latestRows at h
  obtain ⟨k, hk, hpick⟩ := List.mem_filterMap.mp h
  obtain ⟨hmem, hmax⟩ := pickLatest_eq_some _ r hpick
  have hrj : r ∈ joinBlocks bns bals := (List.mem_filter.mp hmem).1
  have hkey : keyHA r = k := by
    have := (List.mem_filter.mp hmem).2
    simpa using this
  refine ⟨hrj, fun x hx hxy => ?_⟩
  exact hmax x (List.mem_filter.mpr ⟨hx, by simp [hxy, hkey]⟩)

theorem Balance.latestRows_key_surj (bns : List BlockNumberRecord)
    (bals : List BalanceRecord) (j : BalanceRecordWithTs)
    (hj : j ∈ joinBlocks bns bals) :
    ∃ r ∈ latestRows bns bals, keyHA r = keyHA j := by
  have hfil : j ∈ (joinBlocks bns bals).filter
      (fun r => keyHA r == keyHA j) :=
    List.mem_filter.mpr ⟨hj, by simp⟩
  obtain ⟨m, hm, hmmem, _⟩ :=
    pickLatest_spec _ (List.ne_nil_of_mem hfil)
  have hkmem : keyHA j ∈ ((joinBlocks bns bals).map keyHA).dedup := by
    rw [List.mem_dedup]
    exact List.mem_map.mpr ⟨j, hj, rfl⟩
  refine ⟨m, ?_, ?_⟩
  · unfold latestRows
    exact List.mem_filterMap.mpr ⟨keyHA j, hkmem, hm⟩
  · have := (List.mem_filter.mp hmmem).2
    simpa using this

theorem Balance.latestRows_keys_nodup (bns : List BlockNumberRecord)
    (bals : List BalanceRecord) :
    ((latestRows bns bals).map keyHA).Nodup := by
  unfold latestRows
  have gen : ∀ (ks : List (String × String)), ks.Nodup →
      ((ks.filterMap fun k =>
        pickLatest ((joinBlocks bns bals).filter
          (fun r => keyHA r == k))).map keyHA).Nodup := by
    intro ks
    induction ks with
    | nil => intro _; simp
    | cons k ks ih =>
      intro hnd
      rw [List.filterMap_cons]
      rcases hpick : pickLatest ((joinBlocks bns bals).filter
          (fun r => keyHA r == k)) with _ | m
      · exact ih (List.Nodup.of_cons hnd)
      · have hkm : keyHA m = k := by
          have hmem := (pickLatest_eq_some _ m hpick).1
          have := (List.mem_filter.mp hmem).2
          simpa using this
        rw [List.map_cons]
        refine List.Nodup.cons ?_ (ih (List.Nodup.of_cons hnd))
        intro hmem
        obtain ⟨r, hr, hkr⟩ := List.mem_map.mp hmem
        obtain ⟨k', hk', hpick'⟩ := List.mem_filterMap.mp hr
        have hkr' : keyHA r = k' := by
          have hmem' := (pickLatest_eq_some _ r hpick').1
          have := (List.mem_filter.mp hmem').2
          simpa using this
        have : k ∈ ks := by
          rw [← hkr, hkr'] at hkm
          rw [← hkm]
          exact hk'
        exact (List.nodup_cons.mp hnd).1 this
  exact gen _ (List.nodup_dedup _)

theorem Balance.mem_getLatestPerHolder (bns : List BlockNumberRecord)
    (bals : List BalanceRecord) (h : String)
    (l : List BalanceRecordWithTs)
    (hmem : (h, l) ∈ getLatestPerHolder bns bals) :
    l = (latestRows bns bals).filter (fun r => r.holderAddress == h) ∧
      h ∈ ((latestRows bns bals).map
        (fun r => r.holderAddress)).dedup := by
  unfold getLatestPerHolder at hmem
  obtain ⟨h', hh', heq⟩ := List.mem_map.mp hmem
  obtain ⟨heq1, heq2⟩ := Prod.mk.injEq .. ▸ heq
  subst heq1
  exact ⟨heq2.symm, hh'⟩

/-! ### Batched inserts -/

theorem Price.chunksOf_flatten (n : Nat) (hn : 0 < n) :
    ∀ l : List PriceRow, (chunksOf n l).flatten = l := by
  have main : ∀ (len : Nat) (l : List PriceRow), l.length ≤ len →
      (chunksOf n l).flatten = l := by
    intro len
    induction len with
    | zero =>
      intro l hl
      have : l = [] := List.eq_nil_of_length_eq_zero (by omega)
      subst this
      rw [chunksOf_eq]
      simp
    | succ len ih =>
      intro l hl
      rw [chunksOf_eq]
      by_cases hnil : l = []
      · simp [hnil]
      · rw [if_neg (by push_neg; exact ⟨by omega, hnil⟩)]
        rw [List.flatten_cons]
        have hpos : 0 < l.length := List.length_pos.mpr hnil
        rw [ih (l.drop n) (by simp only [List.length_drop]; omega)]
        exact List.take_append_drop n l
  exact fun l => main l.length l le_rfl

theorem Price.chunksOf_mem (n : Nat) :
    ∀ (l : List PriceRow) (c : List PriceRow), c ∈ chunksOf n l →
      c.length ≤ n ∧ c ≠ [] := by
  have main : ∀ (len : Nat) (l : List PriceRow), l.length ≤ len →
      ∀ c ∈ chunksOf n l, c.length ≤ n ∧ c ≠ [] := by
    intro len
    induction len with
    | zero =>
      intro l hl c hc
      have : l = [] := List.eq_nil_of_length_eq_zero (by omega)
      subst this
      rw [chunksOf_eq] at hc
      simp at hc
    | succ len ih =>
      intro l hl c hc
      rw [chunksOf_eq] at hc
      by_cases hcond : n = 0 ∨ l = []
      · rw [if_pos hcond] at hc
        simp at hc
      · rw [if_neg hcond] at hc
        push_neg at hcond
        have hpos : 0 < l.length := List.length_pos.mpr hcond.2
        rcases List.mem_cons.mp hc with h | h
        · subst h
          refine ⟨by simp, ?_⟩
          intro hnil
          rw [List.take_eq_nil_iff] at hnil
          rcases hnil with h | h
          · exact hcond.1 h
          · exact hcond.2 h
        · exact ih (l.drop n) (by simp only [List.length_drop]; omega) c h
  exact fun l => main l.length l le_rfl

theorem Price.batchInsert_ok (failsOn : List PriceRow → Bool) :
    ∀ (cs : List (List PriceRow)) (tbl : List PriceRow),
    (∀ c ∈ cs, failsOn c = false) →
    batchInsert failsOn tbl cs = (tbl ++ cs.flatten, true) := by
  intro cs
  induction cs with
  | nil => intro tbl _; simp [batchInsert]
  | cons c cs ih =>
    intro tbl h
    rw [batchInsert, if_neg (by rw [h c (by simp)]; simp)]
    rw [ih (tbl ++ c) (fun x hx => h x (by simp [hx]))]
    simp

theorem Price.batchInsert_fail (failsOn : List PriceRow → Bool) :
    ∀ (done : List (List PriceRow)) (c : List PriceRow)
      (rest : List (List PriceRow)) (tbl : List PriceRow),
    (∀ d ∈ done, failsOn d = false) → failsOn c = true →
    batchInsert failsOn tbl (done ++ c :: rest) =
      (tbl ++ done.flatten, false) := by
  intro done
  induction done with
  | nil =>
    intro c rest tbl _ hc
    rw [List.nil_append, batchInsert, if_pos hc]
    simp
  | cons d done ih =>
    intro c rest tbl h hc
    rw [List.cons_append, batchInsert,
      if_neg (by rw [h d (by simp)]; simp)]
    rw [ih c rest (tbl ++ d) (fun x hx => h x (by simp [hx])) hc]
    simp

/-! ### Claim theorems -/

/-- C5: calling `addOrUpdateMany` with an empty sequence of records
never fails (the operation is total) and leaves the table unchanged:
row count and row contents are identical before and after. -/
theorem addOrUpdateMany_empty_noop (tbl : List BalanceRecord) :
    Balance.addOrUpdateMany tbl [] = tbl := rfl

theorem Balance.addOrUpdate_of_present (tbl : List BalanceRecord)
    (r : BalanceRecord)
    (h : tbl.any (fun b => keyOf b == keyOf r) = true) :
    addOrUpdate tbl r = setBal (keyOf r) r.balance tbl := by
  unfold addOrUpdate
  rw [if_pos h]

/-- C3: `addOrUpdateMany` is idempotent — applying the same batch
twice, from any starting table, leaves exactly the same final row list
as applying it once. -/
theorem addOrUpdateMany_idempotent (tbl rs : List BalanceRecord) :
    Balance.addOrUpdateMany (Balance.addOrUpdateMany tbl rs) rs =
      Balance.addOrUpdateMany tbl rs := by
  induction rs generalizing tbl with
  | nil => rfl
  | cons r rs ih =>
    rw [Balance.addMany_cons tbl r rs, Balance.addMany_cons]
    have hkT := Balance.any_key_addOrUpdate_self tbl r
    have hkA := Balance.any_key_addMany_mono rs (Balance.addOrUpdate tbl r)
      (Balance.keyOf r) hkT
    rw [Balance.addOrUpdate_of_present _ r hkA,
      Balance.addMany_setBal rs _ (Balance.keyOf r) r.balance hkA]
    by_cases hrs : rs.any (fun x => Balance.keyOf x == Balance.keyOf r) = true
    · rw [if_pos hrs]
      exact ih (Balance.addOrUpdate tbl r)
    · rw [if_neg hrs, ih (Balance.addOrUpdate tbl r)]
      apply Balance.setBal_of_allBal
      apply Balance.allBal_addMany_other rs (Balance.addOrUpdate tbl r)
        (Balance.keyOf r) r.balance (Balance.allBal_addOrUpdate_self tbl r)
      intro x hx hxk
      exact hrs (List.any_eq_true.mpr ⟨x, hx, by simp [hxk]⟩)

/-- C4: starting from a table whose (blockNumber, holderAddress,
assetId) keys are pairwise distinct, `addOrUpdateMany` keeps them
pairwise distinct (at most one row per triple before and after), the
resulting key set is the union of the pre-existing keys and the
batch's keys (existing keys updated in place, new keys inserted), and
the resulting row count is the cardinality of that union. -/
theorem addOrUpdateMany_key_invariant (tbl rs : List BalanceRecord)
    (h : (tbl.map Balance.keyOf).Nodup) :
    ((Balance.addOrUpdateMany tbl rs).map Balance.keyOf).Nodup ∧
    ((Balance.addOrUpdateMany tbl rs).map Balance.keyOf).toFinset =
      (tbl.map Balance.keyOf).toFinset ∪
        (rs.map Balance.keyOf).toFinset ∧
    (Balance.addOrUpdateMany tbl rs).length =
      ((tbl.map Balance.keyOf).toFinset ∪
        (rs.map Balance.keyOf).toFinset).card := by
  have h1 := Balance.nodup_keys_addMany rs tbl h
  have h2 := Balance.toFinset_keys_addMany rs tbl
  refine ⟨h1, h2, ?_⟩
  calc (Balance.addOrUpdateMany tbl rs).length
      = ((Balance.addOrUpdateMany tbl rs).map Balance.keyOf).length := by
        rw [List.length_map]
  _ = ((Balance.addOrUpdateMany tbl rs).map Balance.keyOf).toFinset.card :=
      (List.toFinset_card_of_nodup h1).symm
  _ = ((tbl.map Balance.keyOf).toFinset ∪
        (rs.map Balance.keyOf).toFinset).card := by rw [h2]

/-- Witness for C4 at a concrete table and batch: one existing key is
overwritten, one new key is inserted. -/
theorem addOrUpdateMany_key_invariant_witness :
    (([⟨1, "h", "a", 5⟩] : List BalanceRecord).map Balance.keyOf).Nodup ∧
    ((Balance.addOrUpdateMany [⟨1, "h", "a", 5⟩]
        [⟨1, "h", "a", 7⟩, ⟨2, "h", "a", 9⟩]).map Balance.keyOf).Nodup ∧
    ((Balance.addOrUpdateMany [⟨1, "h", "a", 5⟩]
        [⟨1, "h", "a", 7⟩, ⟨2, "h", "a", 9⟩]).map Balance.keyOf).toFinset =
      (([⟨1, "h", "a", 5⟩] : List BalanceRecord).map
        Balance.keyOf).toFinset ∪
        (([⟨1, "h", "a", 7⟩, ⟨2, "h", "a", 9⟩] : List BalanceRecord).map
          Balance.keyOf).toFinset ∧
    (Balance.addOrUpdateMany [⟨1, "h", "a", 5⟩]
        [⟨1, "h", "a", 7⟩, ⟨2, "h", "a", 9⟩]).length =
      ((([⟨1, "h", "a", 5⟩] : List BalanceRecord).map
        Balance.keyOf).toFinset ∪
        (([⟨1, "h", "a", 7⟩, ⟨2, "h", "a", 9⟩] : List BalanceRecord).map
          Balance.keyOf).toFinset).card := by
  have h := addOrUpdateMany_key_invariant [⟨1, "h", "a", 5⟩]
    [⟨1, "h", "a", 7⟩, ⟨2, "h", "a", 9⟩] (by decide)
  exact ⟨by decide, h.1, h.2.1, h.2.2⟩

/-- C6 counterexample: inserting the record {timestamp 10, block 7}
into an empty table whose next generated row identifier is 1 returns
7 — the inserted `block_number` column value — while the generated
identifier of the newly inserted row is 1.  `add` therefore does not
return the generated row identifier. -/
theorem add_counterexample :
    (BlockNumber.add ⟨1, []⟩ ⟨10, 7⟩).2 = 7 ∧
    (BlockNumber.add ⟨1, []⟩ ⟨10, 7⟩).1.rows =
      [(1, BlockNumber.toRow ⟨10, 7⟩)] ∧
    (7 : Nat) ≠ 1 := by
  refine ⟨?_, rfl, by decide⟩
  show jsRound 7 = 7
  exact jsRound_eq_of_le 7 (by norm_num)

/-- C6 (amended): `add` always inserts exactly one new row (so
duplicate timestamps simply create separate rows, never an error or an
overwrite), assigns it the next generated identifier, and returns the
inserted row's `block_number` column value — the `Number(...)`
conversion of the record's block number — not the generated row
identifier. -/
theorem add_inserts_one_row (s : BlockNumber.BlockNumberTable)
    (record : BlockNumberRecord) :
    (BlockNumber.add s record).1.rows =
      s.rows ++ [(s.nextId, BlockNumber.toRow record)] ∧
    (BlockNumber.add s record).1.rows.length = s.rows.length + 1 ∧
    (BlockNumber.add s record).1.nextId = s.nextId + 1 ∧
    (BlockNumber.add s record).2 = jsRound record.blockNumber := by
  refine ⟨rfl, ?_, rfl, rfl⟩
  show (s.rows ++ [(s.nextId, BlockNumber.toRow record)]).length =
    s.rows.length + 1
  simp

/-- C2 counterexample: the record with block number 2 ^ 53 + 1 does
not round-trip through `toRow` and `toRecord`: the `Number(bigint)`
conversion rounds 2 ^ 53 + 1 to the nearest double 2 ^ 53, so the
reconstructed record differs from the original. -/
theorem toRow_toRecord_counterexample :
    BlockNumber.toRecord (BlockNumber.toRow ⟨0, 2 ^ 53 + 1⟩) =
      ⟨0, 2 ^ 53⟩ ∧
    (⟨0, 2 ^ 53⟩ : BlockNumberRecord) ≠ ⟨0, 2 ^ 53 + 1⟩ := by
  have hbits : bits (2 ^ 53 + 1) = 54 :=
    bits_of_bounds 53 _ (by norm_num) (by norm_num)
  have hbn : jsRound (2 ^ 53 + 1) = 2 ^ 53 := by
    rw [jsRound, if_neg (by norm_num), hbits]
    norm_num
  have ht : jsRound (parseDigits (digitsOf 0)) = 0 := by
    have h0 : digitsOf 0 = [0] := rfl
    have h1 : parseDigits [0] = 0 := rfl
    rw [h0, h1]
    exact jsRound_eq_of_le 0 (by norm_num)
  constructor
  · simp only [BlockNumber.toRow, BlockNumber.toRecord,
      BlockNumberRecord.mk.injEq]
    exact ⟨ht, hbn⟩
  · intro hcontra
    exact absurd (congrArg BlockNumberRecord.blockNumber hcontra)
      (by norm_num)

/-- C2 (amended): a `BlockNumberRecord` whose timestamp and block
number are at most 2 ^ 53 (the range on which the `Number(...)` double
conversion is exact) round-trips exactly through `toRow` and
`toRecord`. -/
theorem toRow_toRecord_roundtrip (r : BlockNumberRecord)
    (h1 : r.timestamp ≤ 2 ^ 53) (h2 : r.blockNumber ≤ 2 ^ 53) :
    BlockNumber.toRecord (BlockNumber.toRow r) = r := by
  obtain ⟨t, bn⟩ := r
  simp only [BlockNumber.toRow, BlockNumber.toRecord,
    BlockNumberRecord.mk.injEq]
  simp only at h1 h2
  rw [parseDigits_digitsOf, jsRound_eq_of_le t h1,
    jsRound_eq_of_le bn h2]
  exact ⟨rfl, rfl⟩

/-- Witness for the amended C2 at the test's own values. -/
theorem toRow_toRecord_roundtrip_witness :
    (1652745600 : Nat) ≤ 2 ^ 53 ∧ (123456 : Nat) ≤ 2 ^ 53 ∧
    BlockNumber.toRecord (BlockNumber.toRow ⟨1652745600, 123456⟩) =
      ⟨1652745600, 123456⟩ :=
  ⟨by decide, by decide,
    toRow_toRecord_roundtrip ⟨1652745600, 123456⟩ (by decide) (by decide)⟩

/-- C9: every lookup whose key matches no stored row returns the empty
sequence (a normal outcome of the total lookup functions, never a
failure): `getByBlock`, `getByHolderAndAsset`, `getByTimestamp` and
`getByToken`. -/
theorem lookups_unknown_key_empty (balTbl : List BalanceRecord)
    (priceTbl : List PriceRow) (bn : Nat) (holder asset : String)
    (t : Nat) (aid : String) :
    ((∀ b ∈ balTbl, b.blockNumber ≠ bn) →
      Balance.getByBlock balTbl bn = []) ∧
    ((∀ b ∈ balTbl, ¬(b.holderAddress = holder ∧ b.assetId = asset)) →
      Balance.getByHolderAndAsset balTbl holder asset = []) ∧
    ((∀ r ∈ priceTbl, r.unix_timestamp ≠ digitsOf t) →
      Price.getByTimestamp priceTbl t = []) ∧
    ((∀ r ∈ priceTbl, r.asset_id ≠ aid) →
      Price.getByToken priceTbl aid = []) := by
  refine ⟨?_, ?_, ?_, ?_⟩
  · intro h
    unfold Balance.getByBlock
    rw [List.filter_eq_nil_iff.mpr (fun b hb => by simpa using h b hb)]
  · intro h
    unfold Balance.getByHolderAndAsset
    rw [List.filter_eq_nil_iff.mpr (fun b hb => by simpa using h b hb)]
  · intro h
    unfold Price.getByTimestamp
    rw [List.filter_eq_nil_iff.mpr (fun r hr => by simpa using h r hr)]
    rfl
  · intro h
    unfold Price.getByToken
    rw [List.filter_eq_nil_iff.mpr (fun r hr => by simpa using h r hr)]
    rfl

/-- Witness for C9 at concrete unknown keys. -/
theorem lookups_unknown_key_empty_witness :
    Balance.getByBlock [⟨1, "h", "a", 5⟩] 2 = [] ∧
    Balance.getByHolderAndAsset [⟨1, "h", "a", 5⟩] "x" "a" = [] ∧
    Price.getByTimestamp [] 4 = [] ∧
    Price.getByToken [] "b" = [] := by
  obtain ⟨h1, h2, h3, h4⟩ := lookups_unknown_key_empty
    [⟨1, "h", "a", 5⟩] [] 2 "x" "a" 4 "b"
  exact ⟨h1 (by decide), h2 (by decide), h3 (by simp), h4 (by simp)⟩

/-- C7: `addMany` inserts the mapped rows in consecutive batches of at
most 10,000 rows each (the batches together being exactly the input
rows) and returns the input length; if every batch statement succeeds
the table gains exactly the input rows, and if a batch statement fails
the error is surfaced with exactly the rows of the preceding
(successful) batches written — no recovery of the remainder. -/
theorem addMany_chunked (failsOn : List PriceRow → Bool)
    (tbl : List PriceRow) (prices : List PriceRecord) :
    (∀ c ∈ Price.chunksOf 10000 (prices.map Price.toRow),
      c.length ≤ 10000 ∧ c ≠ []) ∧
    (Price.chunksOf 10000 (prices.map Price.toRow)).flatten =
      prices.map Price.toRow ∧
    (Price.addMany failsOn tbl prices).2 = prices.length ∧
    ((∀ c ∈ Price.chunksOf 10000 (prices.map Price.toRow),
        failsOn c = false) →
      (Price.addMany failsOn tbl prices).1 =
        (tbl ++ prices.map Price.toRow, true)) ∧
    (∀ (done : List (List PriceRow)) (c : List PriceRow)
        (rest : List (List PriceRow)),
      Price.chunksOf 10000 (prices.map Price.toRow) =
        done ++ c :: rest →
      (∀ d ∈ done, failsOn d = false) → failsOn c = true →
      (Price.addMany failsOn tbl prices).1 =
        (tbl ++ done.flatten, false)) := by
  refine ⟨fun c hc => Price.chunksOf_mem 10000 _ c hc,
    Price.chunksOf_flatten 10000 (by norm_num) _, ?_, ?_, ?_⟩
  · unfold Price.addMany
    simp
  · intro hall
    unfold Price.addMany
    simp only
    rw [Price.batchInsert_ok failsOn _ tbl hall,
      Price.chunksOf_flatten 10000 (by norm_num)]
  · intro done c rest hsplit hdone hc
    unfold Price.addMany
    simp only
    rw [hsplit, Price.batchInsert_fail failsOn done c rest tbl hdone hc]

/-- Witness for C7: a two-record insert against a store that accepts
every statement writes both rows and returns 2. -/
theorem addMany_chunked_witness :
    (Price.addMany (fun _ => false) [] [⟨"a", 1, 5⟩, ⟨"b", 2, 6⟩]).2 = 2 ∧
    (Price.addMany (fun _ => false) [] [⟨"a", 1, 5⟩, ⟨"b", 2, 6⟩]).1 =
      ([Price.toRow ⟨"a", 1, 5⟩, Price.toRow ⟨"b", 2, 6⟩], true) := by
  obtain ⟨-, -, hcount, hok, -⟩ := addMany_chunked (fun _ => false) []
    [⟨"a", 1, 5⟩, ⟨"b", 2, 6⟩]
  exact ⟨hcount, hok (fun c _ => rfl)⟩

/-- C8 counterexample: with one asset whose recorded timestamps are
999999999 and 1000000000, the text-column `min`/`max` compare the
stored digit strings lexicographically, so `calcDataBoundaries`
returns earliest = 1000000000 and latest = 999999999 — the entry's
earliest is not the true minimum 999999999 and earliest ≤ latest
fails. -/
theorem calcDataBoundaries_counterexample :
    Price.calcDataBoundaries
        ([⟨"asset-a", 1, 999999999⟩,
          ⟨"asset-a", 1, 1000000000⟩].map Price.toRow) =
      [("asset-a", ⟨1000000000, 999999999⟩)] ∧
    ¬((1000000000 : Nat) ≤ 999999999) ∧
    (999999999 : Nat) < 1000000000 := by
  refine ⟨?_, by decide, by decide⟩
  have h999 : digitsOf 999999999 = [9,9,9,9,9,9,9,9,9] := by
    simp [digitsOf, digitsAux_eq]
  have h1e9 : digitsOf 1000000000 = [1,0,0,0,0,0,0,0,0,0] := by
    simp [digitsOf, digitsAux_eq]
  have hrows : ([⟨"asset-a", 1, 999999999⟩,
      ⟨"asset-a", 1, 1000000000⟩] : List PriceRecord).map Price.toRow =
      [⟨"asset-a", 1, [9,9,9,9,9,9,9,9,9]⟩,
       ⟨"asset-a", 1, [1,0,0,0,0,0,0,0,0,0]⟩] := by
    simp [Price.toRow, h999, h1e9]
  rw [hrows]
  decide

/-- C8 (amended): `calcDataBoundaries` has exactly one entry per
distinct asset present in the table (no default or missing entries);
each entry's earliest/latest are the numeric readings of the
lexicographically least/greatest stored timestamp strings, which
coincide with the true minimum and maximum of the asset's recorded
timestamps — so that earliest ≤ latest — whenever all of that asset's
timestamps have the same decimal length (all in [10^k, 10^(k+1)) for
some k ≤ 14). -/
theorem calcDataBoundaries_min_max (prices : List PriceRecord) :
    ((Price.calcDataBoundaries (prices.map Price.toRow)).map Prod.fst =
      ((prices.map Price.toRow).map (fun r => r.asset_id)).dedup) ∧
    ∀ a bd, (a, bd) ∈ Price.calcDataBoundaries (prices.map Price.toRow) →
      ∀ k, k ≤ 14 →
      (∀ p ∈ prices, p.assetId = a →
        10 ^ k ≤ p.timestamp ∧ p.timestamp < 10 ^ (k + 1)) →
      (∃ p ∈ prices, p.assetId = a ∧ p.timestamp = bd.earliest) ∧
      (∃ p ∈ prices, p.assetId = a ∧ p.timestamp = bd.latest) ∧
      (∀ p ∈ prices, p.assetId = a →
        bd.earliest ≤ p.timestamp ∧ p.timestamp ≤ bd.latest) ∧
      bd.earliest ≤ bd.latest := by
  constructor
  · unfold Price.calcDataBoundaries
    rw [List.map_map]
    exact List.map_id _
  · intro a bd hmem k hk hbound
    unfold Price.calcDataBoundaries at hmem
    obtain ⟨a', ha', heq⟩ := List.mem_map.mp hmem
    simp only [Prod.mk.injEq] at heq
    obtain ⟨rfl, hbd⟩ := heq
    have hfilter : (prices.map Price.toRow).filter
        (fun r => r.asset_id == a') =
        (prices.filter (fun p => p.assetId == a')).map Price.toRow := by
      rw [List.filter_map]
      rfl
    have hts : ((prices.map Price.toRow).filter
        (fun r => r.asset_id == a')).map (fun r => r.unix_timestamp) =
        (prices.filter (fun p => p.assetId == a')).map
          (fun p => digitsOf p.timestamp) := by
      rw [hfilter, List.map_map]
      rfl
    have hamem : a' ∈ (prices.map Price.toRow).map
        (fun r => r.asset_id) := List.mem_dedup.mp ha'
    rw [List.map_map] at hamem
    obtain ⟨p0, hp0, hp0a⟩ := List.mem_map.mp hamem
    have hp0ps : p0 ∈ prices.filter (fun p => p.assetId == a') :=
      List.mem_filter.mpr ⟨hp0, by
        simp [show p0.assetId = a' from hp0a]⟩
    obtain ⟨q, qs, hqs⟩ := List.exists_cons_of_ne_nil
      (List.ne_nil_of_mem hp0ps)
    have htsshape : (prices.filter (fun p => p.assetId == a')).map
        (fun p => digitsOf p.timestamp) =
        digitsOf q.timestamp ::
          qs.map (fun p => digitsOf p.timestamp) := by
      rw [hqs, List.map_cons]
    have hmemfil : ∀ p ∈ prices.filter (fun p => p.assetId == a'),
        p ∈ prices ∧ p.assetId = a' := by
      intro p hp
      have := List.mem_filter.mp hp
      exact ⟨this.1, by simpa using this.2⟩
    have hall : ∀ s ∈ digitsOf q.timestamp ::
        qs.map (fun p => digitsOf p.timestamp),
        s.length = k + 1 ∧ ∀ d ∈ s, d < 10 := by
      intro s hs
      rw [← htsshape] at hs
      obtain ⟨p, hp, rfl⟩ := List.mem_map.mp hs
      obtain ⟨hpp, hpa⟩ := hmemfil p hp
      obtain ⟨hlo, hhi⟩ := hbound p hpp hpa
      exact ⟨digitsOf_length k _ hlo hhi, digitsOf_lt_ten _⟩
    obtain ⟨hminmem, hminle⟩ := sqlMinL_spec (digitsOf q.timestamp)
      (qs.map (fun p => digitsOf p.timestamp)) (k + 1) hall
    obtain ⟨hmaxmem, hmaxge⟩ := sqlMaxL_spec (digitsOf q.timestamp)
      (qs.map (fun p => digitsOf p.timestamp)) (k + 1) hall
    have hsmall : ∀ p ∈ prices, p.assetId = a' →
        p.timestamp ≤ 2 ^ 53 := by
      intro p hp hpa
      have hhi := (hbound p hp hpa).2
      have hpow : (10 : Nat) ^ (k + 1) ≤ 10 ^ 15 :=
        Nat.pow_le_pow_right (by omega) (by omega)
      have h15 : (10 : Nat) ^ 15 ≤ 2 ^ 53 := by norm_num
      omega
    have hbe : bd.earliest = jsRound (parseDigits (Price.sqlMinL
        (digitsOf q.timestamp ::
          qs.map (fun p => digitsOf p.timestamp)))) := by
      rw [← hbd]
      show jsRound (parseDigits (Price.sqlMinL
        (((prices.map Price.toRow).filter
          (fun r => r.asset_id == a')).map
            (fun r => r.unix_timestamp)))) = _
      rw [hts, htsshape]
    have hbl : bd.latest = jsRound (parseDigits (Price.sqlMaxL
        (digitsOf q.timestamp ::
          qs.map (fun p => digitsOf p.timestamp)))) := by
      rw [← hbd]
      show jsRound (parseDigits (Price.sqlMaxL
        (((prices.map Price.toRow).filter
          (fun r => r.asset_id == a')).map
            (fun r => r.unix_timestamp)))) = _
      rw [hts, htsshape]
    obtain ⟨pmin, hpminfil, hpmineq⟩ : ∃ p ∈ prices.filter
        (fun p => p.assetId == a'), digitsOf p.timestamp =
          Price.sqlMinL (digitsOf q.timestamp ::
            qs.map (fun p => digitsOf p.timestamp)) := by
      have hmem2 : Price.sqlMinL (digitsOf q.timestamp ::
          qs.map (fun p => digitsOf p.timestamp)) ∈
          (prices.filter (fun p => p.assetId == a')).map
            (fun p => digitsOf p.timestamp) := by
        rw [htsshape]
        exact hminmem
      obtain ⟨p, hp, hpe⟩ := List.mem_map.mp hmem2
      exact ⟨p, hp, hpe⟩
    obtain ⟨pmax, hpmaxfil, hpmaxeq⟩ : ∃ p ∈ prices.filter
        (fun p => p.assetId == a'), digitsOf p.timestamp =
          Price.sqlMaxL (digitsOf q.timestamp ::
            qs.map (fun p => digitsOf p.timestamp)) := by
      have hmem2 : Price.sqlMaxL (digitsOf q.timestamp ::
          qs.map (fun p => digitsOf p.timestamp)) ∈
          (prices.filter (fun p => p.assetId == a')).map
            (fun p => digitsOf p.timestamp) := by
        rw [htsshape]
        exact hmaxmem
      obtain ⟨p, hp, hpe⟩ := List.mem_map.mp hmem2
      exact ⟨p, hp, hpe⟩
    obtain ⟨hpminp, hpmina⟩ := hmemfil pmin hpminfil
    obtain ⟨hpmaxp, hpmaxa⟩ := hmemfil pmax hpmaxfil
    have hearl : bd.earliest = pmin.timestamp := by
      rw [hbe, ← hpmineq, parseDigits_digitsOf,
        jsRound_eq_of_le _ (hsmall pmin hpminp hpmina)]
    have hlate : bd.latest = pmax.timestamp := by
      rw [hbl, ← hpmaxeq, parseDigits_digitsOf,
        jsRound_eq_of_le _ (hsmall pmax hpmaxp hpmaxa)]
    have hbounds : ∀ p ∈ prices, p.assetId = a' →
        bd.earliest ≤ p.timestamp ∧ p.timestamp ≤ bd.latest := by
      intro p hp hpa
      have hpfil : p ∈ prices.filter (fun x => x.assetId == a') :=
        List.mem_filter.mpr ⟨hp, by simp [hpa]⟩
      have hpdig : digitsOf p.timestamp ∈ digitsOf q.timestamp ::
          qs.map (fun x => digitsOf x.timestamp) := by
        rw [← htsshape]
        exact List.mem_map.mpr ⟨p, hpfil, rfl⟩
      have h1 := hminle (digitsOf p.timestamp) hpdig
      have h2 := hmaxge (digitsOf p.timestamp) hpdig
      rw [parseDigits_digitsOf] at h1 h2
      constructor
      · rw [hearl, ← parseDigits_digitsOf (n := pmin.timestamp), hpmineq]
        exact h1
      · rw [hlate, ← parseDigits_digitsOf (n := pmax.timestamp), hpmaxeq]
        exact h2
    refine ⟨⟨pmin, hpminp, hpmina, hearl.symm⟩,
      ⟨pmax, hpmaxp, hpmaxa, hlate.symm⟩, hbounds, ?_⟩
    have := (hbounds pmin hpminp hpmina).2
    omega

/-- Witness for the amended C8: one asset with timestamps 100 and 500
(both three digits, k = 2) — the boundary entry is (100, 500). -/
theorem calcDataBoundaries_min_max_witness :
    ("a", (⟨100, 500⟩ : DataBoundary)) ∈
      Price.calcDataBoundaries
        (([⟨"a", 1, 100⟩, ⟨"a", 1, 500⟩] : List PriceRecord).map
          Price.toRow) ∧
    (⟨100, 500⟩ : DataBoundary).earliest ≤
      (⟨100, 500⟩ : DataBoundary).latest := by
  have h100 : digitsOf 100 = [1, 0, 0] := by
    simp [digitsOf, digitsAux_eq]
  have h500 : digitsOf 500 = [5, 0, 0] := by
    simp [digitsOf, digitsAux_eq]
  have hrows : ([⟨"a", 1, 100⟩, ⟨"a", 1, 500⟩] :
      List PriceRecord).map Price.toRow =
      [⟨"a", 1, [1, 0, 0]⟩, ⟨"a", 1, [5, 0, 0]⟩] := by
    simp [Price.toRow, h100, h500]
  have hmem : ("a", (⟨100, 500⟩ : DataBoundary)) ∈
      Price.calcDataBoundaries
        (([⟨"a", 1, 100⟩, ⟨"a", 1, 500⟩] : List PriceRecord).map
          Price.toRow) := by
    rw [hrows]
    decide
  exact ⟨hmem, ((calcDataBoundaries_min_max
    [⟨"a", 1, 100⟩, ⟨"a", 1, 500⟩]).2 "a" ⟨100, 500⟩ hmem 2
    (by decide) (by decide)).2.2.2⟩

/-- The per-(holder, asset) model reproduces, on the scenario of the
repository's `getLatestPerHolder` test, exactly the map the test
expects. -/
theorem getLatestPerHolder_matches_test :
    Balance.getLatestPerHolder testBns testBals = testExpectedLatest := by
  decide

/-- C1 counterexample: in the map expected by the repository's own
`getLatestPerHolder` test, the holder's sequence contains a record at
block 123456 while the block tied to the maximal recorded timestamp is
123457 — so the result is not "exactly the rows at the one global
latest block". -/
theorem getLatestPerHolder_counterexample :
    ¬ (∀ pr ∈ testExpectedLatest, ∀ r ∈ pr.2,
        some r.blockNumber = Balance.latestBlockGlobal testBns) := by
  decide

/-- C1 (amended): `getLatestPerHolder` maps each holder to exactly the
latest-per-asset rows: a holder appears exactly when it has a balance
row at some recorded block; its sequence is nonempty, holds at most
one row per asset, and consists of rows of that holder which are
joined-and-maximal — each row is a balance row at a recorded block and
no joined row of the same (holder, asset) pair has a later recorded
timestamp; conversely every (holder, asset) pair with a row at a
recorded block is represented. -/
theorem getLatestPerHolder_latest_per_pair (bns : List BlockNumberRecord)
    (bals : List BalanceRecord) :
    (∀ h l, (h, l) ∈ Balance.getLatestPerHolder bns bals →
      l ≠ [] ∧ (l.map Balance.keyHA).Nodup ∧
      ∀ r ∈ l, r.holderAddress = h ∧
        r ∈ Balance.joinBlocks bns bals ∧
        ∀ x ∈ Balance.joinBlocks bns bals,
          Balance.keyHA x = Balance.keyHA r →
            x.timestamp ≤ r.timestamp) ∧
    (∀ j ∈ Balance.joinBlocks bns bals, ∃ l r,
      (j.holderAddress, l) ∈ Balance.getLatestPerHolder bns bals ∧
      r ∈ l ∧ Balance.keyHA r = Balance.keyHA j) := by
  constructor
  · intro h l hmem
    obtain ⟨hl, hh⟩ := Balance.mem_getLatestPerHolder bns bals h l hmem
    subst hl
    refine ⟨?_, ?_, ?_⟩
    · rw [List.mem_dedup] at hh
      obtain ⟨r0, hr0, hr0h⟩ := List.mem_map.mp hh
      exact List.ne_nil_of_mem
        (List.mem_filter.mpr ⟨hr0, by simp [hr0h]⟩)
    · exact List.Nodup.sublist
        ((List.filter_sublist _).map Balance.keyHA)
        (Balance.latestRows_keys_nodup bns bals)
    · intro r hr
      have hrf := List.mem_filter.mp hr
      have hrh : r.holderAddress = h := by simpa using hrf.2
      obtain ⟨hrj, hrmax⟩ := Balance.mem_latestRows bns bals r hrf.1
      exact ⟨hrh, hrj, hrmax⟩
  · intro j hj
    obtain ⟨r, hrlr, hrk⟩ := Balance.latestRows_key_surj bns bals j hj
    have hrh : r.holderAddress = j.holderAddress := congrArg Prod.fst hrk
    refine ⟨(Balance.latestRows bns bals).filter
      (fun x => x.holderAddress == j.holderAddress), r, ?_, ?_, hrk⟩
    · unfold Balance.getLatestPerHolder
      apply List.mem_map.mpr
      refine ⟨j.holderAddress, ?_, rfl⟩
      rw [List.mem_dedup]
      exact List.mem_map.mpr ⟨r, hrlr, hrh⟩
    · exact List.mem_filter.mpr ⟨hrlr, by simp [hrh]⟩

/-- Witness for the amended C1 at the test scenario. -/
theorem getLatestPerHolder_latest_per_pair_witness :
    (mockHolder, testLatestList) ∈
      Balance.getLatestPerHolder testBns testBals ∧
    testLatestList ≠ [] :=
  ⟨by decide,
    ((getLatestPerHolder_latest_per_pair testBns testBals).1
      mockHolder testLatestList (by decide)).1⟩

/-- C10: every record of a sequence returned by `getLatestPerHolder`
consists of the fields of a stored balance row together with a
timestamp equal to one recorded in the block-number table for that
record's block number. -/
theorem getLatestPerHolder_carries_timestamp
    (bns : List BlockNumberRecord) (bals : List BalanceRecord)
    (h : String) (l : List BalanceRecordWithTs)
    (hmem : (h, l) ∈ Balance.getLatestPerHolder bns bals)
    (r : BalanceRecordWithTs) (hr : r ∈ l) :
    (∃ e ∈ bns, e.blockNumber = r.blockNumber ∧
      e.timestamp = r.timestamp) ∧
    (⟨r.blockNumber, r.holderAddress, r.assetId, r.balance⟩ :
      BalanceRecord) ∈ bals := by
  obtain ⟨hl, -⟩ := Balance.mem_getLatestPerHolder bns bals h l hmem
  subst hl
  have hrl := (List.mem_filter.mp hr).1
  have hrj := (Balance.mem_latestRows bns bals r hrl).1
  obtain ⟨b, hb, e, he, hbe, hre⟩ :=
    (Balance.mem_joinBlocks bns bals r).mp hrj
  subst hre
  refine ⟨⟨e, he, by simpa using hbe, rfl⟩, ?_⟩
  show (⟨b.blockNumber, b.holderAddress, b.assetId, b.balance⟩ :
    BalanceRecord) ∈ bals
  have hbeta : (⟨b.blockNumber, b.holderAddress, b.assetId,
      b.balance⟩ : BalanceRecord) = b := rfl
  rw [hbeta]
  exact hb

/-- Witness for C10 at the test scenario: the token-a record of the
expected map carries the timestamp recorded for block 123456. -/
theorem getLatestPerHolder_carries_timestamp_witness :
    (∃ e ∈ testBns, e.blockNumber = 123456 ∧ e.timestamp = startTs) ∧
    (⟨123456, mockHolder, "token-a", 1000000000000000000⟩ :
      BalanceRecord) ∈ testBals :=
  getLatestPerHolder_carries_timestamp testBns testBals mockHolder
    testLatestList (by decide)
    ⟨123456, mockHolder, "token-a", 1000000000000000000, startTs⟩
    (by decide)
